import Mathlib

/-!
Verification development for a minimal append-only key-value store
(`kvstore.py`).  The program keeps an in-memory mapping `store`, replays an
append-only log file at startup (`load_store`), durably appends one record
per write (`save_set`), and serves lookups from memory (`get_value`).  A
thin command loop (`main`) dispatches `GET`/`SET`/`EXIT` lines.

The embedding models strings as `List Char`.  The on-disk file is a raw
character sequence; reading it back goes through Python's text-mode line
iteration (universal newlines: `\r\n` and `\r` are read as `\n`), then
`str.strip`, a `startswith ("SET ")` test and `str.split(None, 2)`, exactly
as `load_store` does.  A missing file is `Option.none`, distinct from an
empty file.
-/

set_option autoImplicit false

namespace KVStore

/-- The characters Python's `str.strip()` / `str.split(None)` treat as
whitespace: the full `Py_UNICODE_ISSPACE` table (`\t`, `\n`, `\x0b`,
`\x0c`, `\r`, the file/group/record/unit separators `\x1c`-`\x1f`,
space, next-line `\x85`, no-break space `\xa0`, ogham space `\u1680`,
the en/em quads and spaces `\u2000`-`\u200a`, line and paragraph
separators `\u2028`/`\u2029`, narrow no-break space `\u202f`, medium
mathematical space `\u205f`, and ideographic space `\u3000`). -/
def wsp (c : Char) : Bool :=
  c == '\t' || c == '\n' || c == '\x0b' || c == '\x0c' || c == '\r' ||
  c == '\x1c' || c == '\x1d' || c == '\x1e' || c == '\x1f' || c == ' ' ||
  c == '\x85' || c == '\xa0' || c == '\u1680' ||
  c == '\u2000' || c == '\u2001' || c == '\u2002' || c == '\u2003' ||
  c == '\u2004' || c == '\u2005' || c == '\u2006' || c == '\u2007' ||
  c == '\u2008' || c == '\u2009' || c == '\u200a' ||
  c == '\u2028' || c == '\u2029' || c == '\u202f' || c == '\u205f' ||
  c == '\u3000'

/-- Remove trailing whitespace. -/
def dropTrail (l : List Char) : List Char :=
  (l.reverse.dropWhile wsp).reverse

/-- Python `line.strip()`: remove leading and trailing whitespace. -/
def pyStrip (l : List Char) : List Char :=
  dropTrail (l.dropWhile wsp)

/-- Python `s.split(None, maxsplit)`: split on runs of whitespace, at most
`maxsplit` splits; after the last split the remainder (with its leading
whitespace run removed) is kept verbatim; a whitespace-only remainder
produces no element. -/
def pySplit : Nat → List Char → List (List Char)
  | 0, l =>
    if (l.dropWhile wsp).isEmpty then [] else [l.dropWhile wsp]
  | n + 1, l =>
    if (l.dropWhile wsp).isEmpty then []
    else (l.dropWhile wsp).takeWhile (fun c => !wsp c) ::
      pySplit n ((l.dropWhile wsp).dropWhile (fun c => !wsp c))

/-- Python text-mode universal-newline translation: `\r\n` and a lone `\r`
are both read back as `\n`. -/
def normNl : List Char → List Char
  | [] => []
  | [c] => [if c = '\r' then '\n' else c]
  | c1 :: c2 :: rest =>
    if c1 = '\r' then
      if c2 = '\n' then '\n' :: normNl rest
      else '\n' :: normNl (c2 :: rest)
    else c1 :: normNl (c2 :: rest)

/-- Split a character sequence at `\n` (the pieces do not contain the
terminator; a trailing `\n` contributes a final empty piece, which the
replay loop then skips after stripping).  This models `for line in f`. -/
def splitNl : List Char → List (List Char)
  | [] => [[]]
  | c :: rest =>
    let r := splitNl rest
    if c = '\n' then [] :: r
    else (c :: r.headD []) :: r.tail

/-- Keys and values are strings. -/
abbrev Key := List Char

abbrev Val := List Char

/-- The in-memory mapping (`store: dict[str, str]`), as an insertion-ordered
association list without duplicate keys, mirroring a Python `dict`. -/
abbrev Store := List (Key × Val)

/-- Python `store[key] = value`: overwrite in place if the key is present,
otherwise append the new entry. -/
def setStore : Store → Key → Val → Store
  | [], k, v => [(k, v)]
  | (k', v') :: t, k, v =>
    if k' = k then (k, v) :: t else (k', v') :: setStore t k v

/-- Python `store.get(key)` (`get_value` in the source): the value for the
key, or `none`. -/
def get_value : Store → Key → Option Val
  | [], _ => none
  | (k', v') :: t, k => if k' = k then some v' else get_value t k

/-- The test `line.startswith("SET ")` from `load_store`. -/
def hasMarker : List Char → Bool
  | 'S' :: 'E' :: 'T' :: ' ' :: _ => true
  | _ => false

/-- The body of `load_store`'s per-line loop: strip the line, require the
`"SET "` marker, split into at most three tokens, and apply the record iff
there are exactly three. -/
def applyLine (st : Store) (raw : List Char) : Store :=
  if hasMarker (pyStrip raw) then
    match pySplit 2 (pyStrip raw) with
    | [_, k, v] => setStore st k v
    | _ => st
  else st

/-- Parsing half of `applyLine`: the record a raw line contributes, if any. -/
def parseLine (raw : List Char) : Option (Key × Val) :=
  if hasMarker (pyStrip raw) then
    match pySplit 2 (pyStrip raw) with
    | [_, k, v] => some (k, v)
    | _ => none
  else none

/-- Replay a list of raw lines in order into a store. -/
def replayLines (st : Store) (ls : List (List Char)) : Store :=
  ls.foldl applyLine st

/-- Replay raw file content: text-mode line iteration over the bytes, then
`applyLine` per line (the `for line in f` loop of `load_store`). -/
def replayContent (st : Store) (content : List Char) : Store :=
  replayLines st (splitNl (normNl content))

/-- `load_store`: if the file is missing, return at once (no error); else
replay its content into the current store.  The store is merged into, never
cleared. -/
def load_store (st : Store) (disk : Option (List Char)) : Store :=
  match disk with
  | none => st
  | some c => replayContent st c

/-- `load_store` with its error channel: the returned `Bool` is whether
`logging.error` ran.  `readFailAfter = some n` injects an `IOError` after
`n` lines were read (the `except` clause logs and keeps the lines applied
so far); `none` is a clean full read. -/
def load_storeRun (st : Store) (disk : Option (List Char))
    (readFailAfter : Option Nat) : Store × Bool :=
  match disk with
  | none => (st, false)
  | some c =>
    match readFailAfter with
    | none => (replayContent st c, false)
    | some n => (replayLines st ((splitNl (normNl c)).take n), true)

/-- The line `save_set` appends: `f"SET {key} {value}\n"`. -/
def mkRecordLine (k : Key) (v : Val) : List Char :=
  'S' :: 'E' :: 'T' :: ' ' :: (k ++ ' ' :: v ++ ['\n'])

/-- `save_set`: on success (`ok = true`) the record line is appended to the
file (creating it when missing) and only then is the store updated; on an
`IOError`/`OSError` (`ok = false`) the store is left untouched and the
error is logged (third component).  The on-disk bytes after a failed append
are not modelled; no claim depends on them. -/
def save_set (st : Store) (disk : Option (List Char)) (k : Key) (v : Val)
    (ok : Bool) : Store × Option (List Char) × Bool :=
  if ok then (setStore st k v, some (disk.getD [] ++ mkRecordLine k v), false)
  else (st, disk, true)

/-- Shorthand for writing concrete character lists. -/
def s2l (s : String) : List Char := s.data

/-! ### Event-level model of `save_set`

`save_set` performs, in source order: `open(DATA_FILE, 'a')`, `f.write(...)`,
`f.flush()`, `os.fsync(...)`, and only then `store[key] = value`; an
`IOError`/`OSError` raised by any of the four I/O steps skips everything
after it and runs `logging.error`. -/

/-- Observable events of one `save_set` call. -/
inductive Ev where
  | evOpen : Ev
  | evWrite : List Char → Ev
  | evFlush : Ev
  | evFsync : Ev
  | evStoreUpdate : Key → Val → Ev
  | evLogError : Ev
deriving DecidableEq

/-- The four I/O steps of `save_set`, in source order. -/
def ioSeq (k : Key) (v : Val) : List Ev :=
  [Ev.evOpen, Ev.evWrite (mkRecordLine k v), Ev.evFlush, Ev.evFsync]

/-- The event trace of one `save_set` call: `failAt = none` means all four
I/O steps succeed and the store update runs last; `failAt = some i` means
the `i`-th I/O step raises, the remaining steps and the store update are
skipped, and the error is logged. -/
def save_setTrace (k : Key) (v : Val) (failAt : Option (Fin 4)) : List Ev :=
  match failAt with
  | none => ioSeq k v ++ [Ev.evStoreUpdate k v]
  | some i => (ioSeq k v).take i.val ++ [Ev.evLogError]

/-! ### The command loop (`main`)

One loop iteration reads a line (`input()` yields lines without `\n`, and
text-mode stdin translates `\r`, so a read line contains neither), skips
empty lines, computes `parts = line.strip().split(None, 2)`, and then runs
the `GET` / `SET` / `EXIT` / invalid dispatch chain.  Reaching
`parts[0] == CMD_EXIT` with `parts = []` raises an uncaught `IndexError`,
modelled as `StepRes.crash`. -/

/-- Output events of one loop iteration: a line on stdout or a diagnostic
on stderr. -/
inductive OutEv where
  | out : List Char → OutEv
  | err : List Char → OutEv
deriving DecidableEq

/-- Process state: the in-memory store and the on-disk log file
(`none` = file missing). -/
structure State where
  store : Store
  file : Option (List Char)
deriving DecidableEq

/-- Result of one loop iteration: continue, break out of the loop (`EXIT`),
or die on an uncaught exception. -/
inductive StepRes where
  | next : State → List OutEv → StepRes
  | halt : State → List OutEv → StepRes
  | crash : StepRes
deriving DecidableEq

def strGET : List Char := ['G', 'E', 'T']

def strSET : List Char := ['S', 'E', 'T']

def strEXIT : List Char := ['E', 'X', 'I', 'T']

def msgInvalid : List Char := s2l "Invalid command. Use SET, GET, or EXIT."

def msgOK : List Char := s2l "(OK)"

def msgWriteError : List Char := s2l "Error writing to data file"

/-- Dispatch of one parsed input line, mirroring the `elif` chain of `main`:
the `GET` branch needs exactly two parts, the `SET` branch at least three,
then `parts[0] == CMD_EXIT` (which is an uncaught `IndexError` when
`parts` is empty), else the invalid-command diagnostic (interactive
sessions only). -/
def stepParts (interactive : Bool) (s : State) (parts : List (List Char))
    (ok : Bool) : StepRes :=
  match parts with
  | [] => StepRes.crash
  | [c] =>
    if c = strEXIT then StepRes.halt s []
    else StepRes.next s (if interactive then [OutEv.err msgInvalid] else [])
  | [c, a] =>
    if c = strGET then
      StepRes.next s [OutEv.out ((get_value s.store a).getD [])]
    else if c = strEXIT then StepRes.halt s []
    else StepRes.next s (if interactive then [OutEv.err msgInvalid] else [])
  | c :: k :: v :: _ =>
    if c = strSET then
      StepRes.next
        ⟨(save_set s.store s.file k v ok).1, (save_set s.store s.file k v ok).2.1⟩
        ((if (save_set s.store s.file k v ok).2.2 then [OutEv.err msgWriteError]
            else []) ++
          (if interactive then [OutEv.err msgOK] else []))
    else if c = strEXIT then StepRes.halt s []
    else StepRes.next s (if interactive then [OutEv.err msgInvalid] else [])

/-- One iteration of `main`'s `while` loop on input `line`; `ok` tells
whether the four I/O steps of a `save_set` triggered by this line all
succeed.  Empty lines are skipped (`if not line: continue`); otherwise the
line is stripped, split, and dispatched. -/
def step (interactive : Bool) (s : State) (line : List Char) (ok : Bool) :
    StepRes :=
  if line.isEmpty then StepRes.next s []
  else stepParts interactive s (pySplit 2 (pyStrip line)) ok

/-- Run the loop on a list of input lines (each paired with the I/O outcome
its `save_set`, if any, would see): `none` means the process died on an
uncaught exception; `some s` is the state when the loop ends (by `EXIT` or
end of input). -/
def run (interactive : Bool) : State → List (List Char × Bool) → Option State
  | s, [] => some s
  | s, (l, ok) :: rest =>
    match step interactive s l ok with
    | StepRes.next s' _ => run interactive s' rest
    | StepRes.halt s' _ => some s'
    | StepRes.crash => none

/-- Process startup: replay the log file (if present) into the empty store. -/
def startState (disk : Option (List Char)) : State :=
  ⟨load_store [] disk, disk⟩

/-! ### Specification-side helper definitions -/

/-- The pure replay of a disk state into an empty store. -/
def replayDisk (disk : Option (List Char)) : Store :=
  load_store [] disk

/-- The log file is absent, empty, or newline-terminated (every state of
the file that `save_set` itself ever produces has this shape). -/
def endsNlD (disk : Option (List Char)) : Prop :=
  ∀ c ∈ disk, c = [] ∨ c.getLast? = some '\n'

/-- An input line as the dispatcher can actually produce it: `input()`
returns a single line, so it contains no `\n`, and text-mode stdin
translates `\r` away. -/
abbrev inputLineOk (l : List Char) : Prop :=
  '\n' ∉ l ∧ '\r' ∉ l

/-- A key that survives the on-disk grammar: nonempty and whitespace-free. -/
abbrev tokenOk (k : Key) : Prop :=
  k ≠ [] ∧ ∀ a ∈ k, wsp a = false

/-- A value that survives the on-disk grammar: nonempty, not starting or
ending with whitespace, and containing no line terminator. -/
abbrev valueOk (v : Val) : Prop :=
  v ≠ [] ∧ wsp (v.headD 'x') = false ∧ wsp (v.getLastD 'x') = false ∧
    ∀ a ∈ v, ¬(a = '\n' ∨ a = '\r')

/-- The records contributed by a list of raw lines, in order. -/
def recsOf (ls : List (List Char)) : List (Key × Val) :=
  ls.filterMap parseLine

/-- Apply a list of records to a store, in order. -/
def applyRecs (st : Store) (rs : List (Key × Val)) : Store :=
  rs.foldl (fun t r => setStore t r.1 r.2) st

/-- Specification-side definition for comparison: the value of the last
record for a key in a record list (the "last write wins" mapping the spec
describes). -/
def lastVal (rs : List (Key × Val)) (k : Key) : Option Val :=
  ((rs.filter (fun r => r.1 == k)).getLast?).map Prod.snd

/-! ### Lemmas about stripping and splitting -/

/-- A file content that is empty or newline-terminated. -/
def endsNl (f : List Char) : Prop :=
  f = [] ∨ f.getLast? = some '\n'

theorem suffix_getLast? {α : Type} {a b : List α} (h : a <:+ b) (ha : a ≠ []) :
    b.getLast? = a.getLast? := by
  obtain ⟨pre, rfl⟩ := h
  exact List.getLast?_append_of_ne_nil pre ha

theorem takeWhile_ne_nil {p : Char → Bool} {a : Char} {l : List Char}
    (hp : p a = true) : (a :: l).takeWhile p ≠ [] := by
  simp [List.takeWhile_cons, hp]

theorem dropWhile_all_append {p : Char → Bool} {k : List Char} {b : Char}
    {r : List Char} (hk : ∀ a ∈ k, p a = true) (hb : p b = false) :
    (k ++ b :: r).dropWhile p = b :: r := by
  induction k with
  | nil => simp [List.dropWhile_cons, hb]
  | cons a k ih =>
    have ha : p a = true := hk a (by simp)
    simp only [List.cons_append, List.dropWhile_cons, ha, if_true]
    exact ih fun x hx => hk x (by simp [hx])

theorem takeWhile_all_append {p : Char → Bool} {k : List Char} {b : Char}
    {r : List Char} (hk : ∀ a ∈ k, p a = true) (hb : p b = false) :
    (k ++ b :: r).takeWhile p = k := by
  induction k with
  | nil => simp [List.takeWhile_cons, hb]
  | cons a k ih =>
    have ha : p a = true := hk a (by simp)
    simp only [List.cons_append, List.takeWhile_cons, ha, if_true]
    exact congrArg (a :: ·) (ih fun x hx => hk x (by simp [hx]))

theorem dropWhile_head_false {p : Char → Bool} {l : List Char}
    (h : l.dropWhile p ≠ []) : p ((l.dropWhile p).headD 'x') = false := by
  have := List.head_dropWhile_not p l h
  rwa [List.headD_eq_head?, List.head?_eq_head h]

theorem dropWhile_eq_self {p : Char → Bool} {a : Char} {l : List Char}
    (ha : p a = false) : (a :: l).dropWhile p = a :: l := by
  simp [List.dropWhile_cons, ha]

theorem dropTrail_eq_self {l : List Char} (hl : l ≠ [])
    (h : wsp (l.getLastD 'x') = false) : dropTrail l = l := by
  unfold dropTrail
  cases hr : l.reverse with
  | nil => simp_all
  | cons a r =>
    have : l.getLast? = some a := by
      rw [← List.head?_reverse, hr, List.head?_cons]
    rw [List.getLastD_eq_getLast?, this, Option.getD_some] at h
    rw [dropWhile_eq_self h, ← hr, List.reverse_reverse]

theorem dropTrail_mem {l : List Char} {a : Char} (h : a ∈ dropTrail l) :
    a ∈ l := by
  unfold dropTrail at h
  rw [List.mem_reverse] at h
  exact List.mem_reverse.mp ((List.dropWhile_suffix wsp).subset h)

theorem pyStrip_mem {l : List Char} {a : Char} (h : a ∈ pyStrip l) : a ∈ l :=
  (List.dropWhile_suffix wsp).subset (dropTrail_mem h)

theorem pyStrip_getLast {l : List Char} (h : pyStrip l ≠ []) :
    wsp ((pyStrip l).getLastD 'x') = false := by
  unfold pyStrip dropTrail at h ⊢
  have hne : (l.dropWhile wsp).reverse.dropWhile wsp ≠ [] := by
    intro hc
    rw [hc] at h
    exact h rfl
  have hh := dropWhile_head_false hne
  rwa [List.getLastD_eq_getLast?, List.getLast?_reverse,
    ← List.headD_eq_head?] at *

theorem pyStrip_eq_self {l : List Char} (hl : l ≠ [])
    (hh : wsp (l.headD 'x') = false) (ht : wsp (l.getLastD 'x') = false) :
    pyStrip l = l := by
  cases l with
  | nil => simp_all
  | cons a r =>
    unfold pyStrip
    rw [dropWhile_eq_self (by simpa using hh)]
    exact dropTrail_eq_self hl ht

/-- Shape of the pieces produced by `split(None, 2)` when it yields at least
three: the middle token is a nonempty whitespace-free word, and the final
piece is the nonempty remainder, a suffix of the input not starting with
whitespace. -/
theorem pySplit_succ (n : Nat) (l : List Char) :
    pySplit (n + 1) l =
      if (l.dropWhile wsp).isEmpty then []
      else (l.dropWhile wsp).takeWhile (fun c => !wsp c) ::
        pySplit n ((l.dropWhile wsp).dropWhile (fun c => !wsp c)) := rfl

theorem pySplit_zero (l : List Char) :
    pySplit 0 l =
      if (l.dropWhile wsp).isEmpty then [] else [l.dropWhile wsp] := rfl

theorem pySplit_two_shape {l c k v : List Char} {t : List (List Char)}
    (h : pySplit 2 l = c :: k :: v :: t) :
    tokenOk k ∧ v ≠ [] ∧ wsp (v.headD 'x') = false ∧ v <:+ l := by
  rw [show (2 : Nat) = 1 + 1 from rfl, pySplit_succ] at h
  split at h
  · exact absurd h (by simp)
  · simp only [List.cons.injEq] at h
    obtain ⟨-, h⟩ := h
    rw [pySplit_succ] at h
    split at h
    · exact absurd h (by simp)
    · rename_i h2
      simp only [List.cons.injEq] at h
      obtain ⟨hk, h⟩ := h
      rw [pySplit_zero] at h
      split at h
      · exact absurd h (by simp)
      · rename_i h3
        simp only [List.cons.injEq] at h
        obtain ⟨hv, -⟩ := h
        set r1 := (l.dropWhile wsp).dropWhile (fun c => !wsp c) with hr1
        set r2 := r1.dropWhile wsp with hr2
        set r3 := r2.dropWhile (fun c => !wsp c) with hr3
        have hr2ne : r2 ≠ [] := by
          intro hc
          rw [hc] at h2
          exact h2 (by simp)
        have hr2h : wsp (r2.headD 'x') = false := dropWhile_head_false hr2ne
        have hvne : r3.dropWhile wsp ≠ [] := by
          intro hc
          rw [hc] at h3
          exact h3 (by simp)
        refine ⟨⟨?_, ?_⟩, ?_, ?_, ?_⟩
        · rw [← hk]
          cases hc : r2 with
          | nil => exact absurd hc hr2ne
          | cons a rr =>
            rw [hc] at hr2h
            simp only [List.headD_cons] at hr2h
            exact takeWhile_ne_nil (by simp [hr2h])
        · intro a ha
          rw [← hk] at ha
          have := List.mem_takeWhile_imp ha
          simpa using this
        · rw [← hv]; exact hvne
        · rw [← hv]; exact dropWhile_head_false hvne
        · rw [← hv]
          calc r3.dropWhile wsp <:+ r3 := List.dropWhile_suffix _
            _ <:+ r2 := List.dropWhile_suffix _
            _ <:+ r1 := List.dropWhile_suffix _
            _ <:+ l.dropWhile wsp := List.dropWhile_suffix _
            _ <:+ l := List.dropWhile_suffix _

/-! ### Lemmas about line splitting and newline normalisation -/

theorem splitNl_ne_nil (l : List Char) : splitNl l ≠ [] := by
  cases l with
  | nil => simp [splitNl]
  | cons c r =>
    unfold splitNl
    split <;> simp

theorem splitNl_cons (c : Char) (r : List Char) :
    splitNl (c :: r) =
      if c = '\n' then [] :: splitNl r
      else (c :: (splitNl r).headD []) :: (splitNl r).tail := by
  conv_lhs => unfold splitNl

theorem splitNl_cons_nl (r : List Char) : splitNl ('\n' :: r) = [] :: splitNl r := by
  rw [splitNl_cons, if_pos rfl]

theorem splitNl_cons_ne {c : Char} (h : c ≠ '\n') (r : List Char) :
    splitNl (c :: r) = (c :: (splitNl r).headD []) :: (splitNl r).tail := by
  rw [splitNl_cons, if_neg h]

theorem splitNl_no_nl_cons {l r : List Char} (h : '\n' ∉ l) :
    splitNl (l ++ '\n' :: r) = l :: splitNl r := by
  induction l with
  | nil => simpa using splitNl_cons_nl r
  | cons c l ih =>
    have hc : c ≠ '\n' := by
      intro hc
      exact h (by simp [hc])
    have ih' := ih (fun hm => h (by simp [hm]))
    rw [List.cons_append, splitNl_cons_ne hc, ih']
    simp

theorem splitNl_no_nl {l : List Char} (h : '\n' ∉ l) : splitNl l = [l] := by
  induction l with
  | nil => rfl
  | cons c l ih =>
    have hc : c ≠ '\n' := by
      intro hc
      exact h (by simp [hc])
    rw [splitNl_cons_ne hc, ih (fun hm => h (by simp [hm]))]
    simp

/-- A newline-terminated (or empty) content splits into a list of lines
ending with an empty piece, and appending more content extends the line
list after those lines. -/
theorem splitNl_endsNl_aux : ∀ (n : Nat) (f : List Char), f.length ≤ n → endsNl f →
    ∃ ls, splitNl f = ls ++ [[]] ∧ ∀ w, splitNl (f ++ w) = ls ++ splitNl w := by
  intro n
  induction n with
  | zero =>
    intro f hlen _
    have : f = [] := by
      cases f with
      | nil => rfl
      | cons a r => simp at hlen
    subst this
    exact ⟨[], rfl, fun w => by simp⟩
  | succ n ih =>
    intro f hlen h
    cases hf : f with
    | nil => exact ⟨[], rfl, fun w => by simp⟩
    | cons a r =>
      subst hf
      have hlast : (a :: r).getLast? = some '\n' := by
        rcases h with h | h
        · exact absurd h (by simp)
        · exact h
      have hmem : '\n' ∈ a :: r := by
        have hg := List.getLast?_eq_getLast (a :: r) (by simp)
        rw [hg] at hlast
        have hl : (a :: r).getLast (by simp) = '\n' := by
          simpa using hlast
        rw [← hl]
        exact List.getLast_mem _
      set l1 := (a :: r).takeWhile (fun c => c ≠ '\n') with hl1
      set rest := (a :: r).dropWhile (fun c => c ≠ '\n') with hrest
      have hsplit : l1 ++ rest = a :: r := List.takeWhile_append_dropWhile _ _
      have hrne : rest ≠ [] := by
        intro hc
        rw [hc, List.append_nil] at hsplit
        have h1 : '\n' ∈ l1 := hsplit ▸ hmem
        have := List.mem_takeWhile_imp h1
        simp at this
      have hrhead : ((a :: r).dropWhile (fun c => c ≠ '\n')).headD 'x' = '\n' := by
        have := dropWhile_head_false (p := fun c => decide (c ≠ '\n')) (l := a :: r)
          (by simpa [hrest] using hrne)
        simpa using this
      obtain ⟨f2, hf2⟩ : ∃ f2, rest = '\n' :: f2 := by
        cases hr : rest with
        | nil => exact absurd hr hrne
        | cons b f2 =>
          rw [← hrest, hr] at hrhead
          simp only [List.headD_cons] at hrhead
          exact ⟨f2, by rw [hrhead]⟩
      have hl1nl : '\n' ∉ l1 := by
        intro hm
        have := List.mem_takeWhile_imp hm
        simp at this
      have hdecomp : a :: r = l1 ++ '\n' :: f2 := by
        rw [← hsplit, hf2]
      have hf2len : f2.length ≤ n := by
        have hL : (a :: r).length = l1.length + (1 + f2.length) := by
          rw [hdecomp]
          simp [List.length_append]
          omega
        omega
      have hf2ends : endsNl f2 := by
        cases hf22 : f2 with
        | nil => exact Or.inl rfl
        | cons b f3 =>
          right
          rw [hdecomp, hf22] at hlast
          rw [List.getLast?_append_of_ne_nil l1 (by simp)] at hlast
          rw [← hlast]
          exact List.getLast?_cons_cons.symm
      obtain ⟨ls2, hls2, hls2w⟩ := ih f2 hf2len hf2ends
      refine ⟨l1 :: ls2, ?_, ?_⟩
      · rw [hdecomp, splitNl_no_nl_cons hl1nl, hls2]
        rfl
      · intro w
        rw [hdecomp, List.append_assoc, List.cons_append,
          splitNl_no_nl_cons hl1nl, hls2w w]
        rfl

theorem splitNl_endsNl {f : List Char} (h : endsNl f) :
    ∃ ls, splitNl f = ls ++ [[]] ∧ ∀ w, splitNl (f ++ w) = ls ++ splitNl w :=
  splitNl_endsNl_aux f.length f (Nat.le_refl _) h

theorem normNl_nil : normNl [] = [] := rfl

theorem normNl_one (c : Char) : normNl [c] = [if c = '\r' then '\n' else c] := rfl

theorem normNl_two (c1 c2 : Char) (rest : List Char) :
    normNl (c1 :: c2 :: rest) =
      if c1 = '\r' then
        if c2 = '\n' then '\n' :: normNl rest else '\n' :: normNl (c2 :: rest)
      else c1 :: normNl (c2 :: rest) := by
  conv_lhs => unfold normNl

theorem normNl_ne_nil {l : List Char} (h : l ≠ []) : normNl l ≠ [] := by
  cases l with
  | nil => exact absurd rfl h
  | cons c1 r =>
    cases r with
    | nil => simp [normNl_one]
    | cons c2 r2 =>
      rw [normNl_two]
      split <;> (try split) <;> simp

theorem normNl_of_no_cr : ∀ {l : List Char}, '\r' ∉ l → normNl l = l
  | [], _ => rfl
  | [c], h => by
    have hc : c ≠ '\r' := fun hc => h (by simp [hc])
    simp [normNl_one, hc]
  | c1 :: c2 :: rest, h => by
    have h1 : c1 ≠ '\r' := fun hc => h (by simp [hc])
    have h2 : '\r' ∉ c2 :: rest := fun hm => h (by simp [hm])
    rw [normNl_two, if_neg h1, normNl_of_no_cr h2]

theorem normNl_append : ∀ {f : List Char}, f.getLast? ≠ some '\r' →
    ∀ (y : List Char), normNl (f ++ y) = normNl f ++ normNl y
  | [], _, y => by simp [normNl_nil]
  | [c], h, y => by
    have hc : c ≠ '\r' := by simpa using h
    cases y with
    | nil => simp [normNl_nil, normNl_one, hc]
    | cons c2 y2 =>
      show normNl (c :: c2 :: y2) = normNl [c] ++ normNl (c2 :: y2)
      rw [normNl_two, if_neg hc, normNl_one, if_neg hc]
      rfl
  | c1 :: c2 :: f2, h, y => by
    have h2 : (c2 :: f2).getLast? ≠ some '\r' := by
      intro hc
      exact h (by rw [List.getLast?_cons_cons, hc])
    show normNl (c1 :: c2 :: (f2 ++ y)) = normNl (c1 :: c2 :: f2) ++ normNl y
    rw [normNl_two, normNl_two]
    by_cases hc1 : c1 = '\r'
    · rw [if_pos hc1, if_pos hc1]
      by_cases hc2 : c2 = '\n'
      · rw [if_pos hc2, if_pos hc2, List.cons_append]
        have hf2 : f2.getLast? ≠ some '\r' := by
          cases hf : f2 with
          | nil => simp
          | cons b f3 =>
            intro hcon
            apply h2
            rw [hf, List.getLast?_cons_cons]
            exact hcon
        rw [normNl_append hf2 y]
      · rw [if_neg hc2, if_neg hc2, List.cons_append]
        exact congrArg ('\n' :: ·) (normNl_append h2 y)
    · rw [if_neg hc1, if_neg hc1, List.cons_append]
      exact congrArg (c1 :: ·) (normNl_append h2 y)

theorem getLast?_cons_ne {α : Type} {a : α} {l : List α} (h : l ≠ []) :
    (a :: l).getLast? = l.getLast? :=
  List.getLast?_append_of_ne_nil [a] h

theorem normNl_getLast_nl : ∀ {f : List Char}, f.getLast? = some '\n' →
    (normNl f).getLast? = some '\n'
  | [], h => by simp at h
  | [c], h => by
    have hc : c = '\n' := by simpa using h
    subst hc
    simp [normNl_one]
  | c1 :: c2 :: f2, h => by
    have h2 : (c2 :: f2).getLast? = some '\n' := by
      rwa [List.getLast?_cons_cons] at h
    rw [normNl_two]
    by_cases hc1 : c1 = '\r'
    · rw [if_pos hc1]
      by_cases hc2 : c2 = '\n'
      · rw [if_pos hc2]
        cases hf : f2 with
        | nil => simp [normNl_nil]
        | cons b f3 =>
          have h3 : (b :: f3).getLast? = some '\n' := by
            rw [hf] at h2
            rwa [List.getLast?_cons_cons] at h2
          rw [getLast?_cons_ne (normNl_ne_nil (by simp))]
          exact normNl_getLast_nl h3
      · rw [if_neg hc2]
        rw [getLast?_cons_ne (normNl_ne_nil (by simp))]
        exact normNl_getLast_nl h2
    · rw [if_neg hc1]
      rw [getLast?_cons_ne (normNl_ne_nil (by simp))]
      exact normNl_getLast_nl h2

theorem endsNl_normNl {f : List Char} (h : endsNl f) : endsNl (normNl f) := by
  rcases h with h | h
  · subst h
    exact Or.inl rfl
  · exact Or.inr (normNl_getLast_nl h)

/-! ### Replaying one appended record -/

/-- The record line without its terminator. -/
def recBody (k : Key) (v : Val) : List Char :=
  'S' :: 'E' :: 'T' :: ' ' :: (k ++ ' ' :: v)

theorem mkRecordLine_eq (k : Key) (v : Val) :
    mkRecordLine k v = recBody k v ++ ['\n'] := by
  simp [mkRecordLine, recBody]

theorem tokenOk_no_nl {k : Key} (hk : tokenOk k) : '\n' ∉ k ∧ '\r' ∉ k := by
  constructor <;> intro hm <;> have := hk.2 _ hm <;> simp [wsp] at this

theorem recBody_no_nl {k : Key} {v : Val} (hk : tokenOk k) (hv : valueOk v) :
    '\n' ∉ recBody k v := by
  intro hm
  simp only [recBody, List.mem_cons, List.mem_append] at hm
  rcases hm with h | h | h | h | h | h | h
  · exact absurd h (by decide)
  · exact absurd h (by decide)
  · exact absurd h (by decide)
  · exact absurd h (by decide)
  · exact (tokenOk_no_nl hk).1 h
  · exact absurd h (by decide)
  · exact (hv.2.2.2 _ h) (Or.inl rfl)

theorem recBody_no_cr {k : Key} {v : Val} (hk : tokenOk k) (hv : valueOk v) :
    '\r' ∉ recBody k v := by
  intro hm
  simp only [recBody, List.mem_cons, List.mem_append] at hm
  rcases hm with h | h | h | h | h | h | h
  · exact absurd h (by decide)
  · exact absurd h (by decide)
  · exact absurd h (by decide)
  · exact absurd h (by decide)
  · exact (tokenOk_no_nl hk).2 h
  · exact absurd h (by decide)
  · exact (hv.2.2.2 _ h) (Or.inr rfl)

theorem pyStrip_recBody {k : Key} {v : Val} (_hk : tokenOk k) (hv : valueOk v) :
    pyStrip (recBody k v) = recBody k v := by
  apply pyStrip_eq_self (by simp [recBody])
  · simp [recBody]
    decide
  · obtain ⟨hvne, -, hvl, -⟩ := hv
    have hx : recBody k v = ('S' :: 'E' :: 'T' :: ' ' :: (k ++ [' '])) ++ v := by
      simp [recBody, List.append_assoc]
    rw [hx, List.getLastD_eq_getLast?, List.getLast?_append_of_ne_nil _ hvne,
      ← List.getLastD_eq_getLast?]
    exact hvl

theorem pySplit_recBody {k : Key} {v : Val} (hk : tokenOk k) (hv : valueOk v) :
    pySplit 2 (recBody k v) = [['S', 'E', 'T'], k, v] := by
  obtain ⟨hkne, hkw⟩ := hk
  obtain ⟨hvne, hvh, -, -⟩ := hv
  obtain ⟨a, k2, rfl⟩ : ∃ a k2, k = a :: k2 := by
    cases k with
    | nil => exact absurd rfl hkne
    | cons a k2 => exact ⟨a, k2, rfl⟩
  obtain ⟨b, v2, rfl⟩ : ∃ b v2, v = b :: v2 := by
    cases v with
    | nil => exact absurd rfl hvne
    | cons b v2 => exact ⟨b, v2, rfl⟩
  have ha : wsp a = false := hkw a (by simp)
  have hb : wsp b = false := by simpa using hvh
  have hk2 : ∀ x ∈ a :: k2, (!wsp x) = true := by
    intro x hx
    simp [hkw x hx]
  show pySplit 2 ('S' :: 'E' :: 'T' :: ' ' :: ((a :: k2) ++ ' ' :: (b :: v2))) =
    [['S', 'E', 'T'], a :: k2, b :: v2]
  rw [show (2 : Nat) = 1 + 1 from rfl, pySplit_succ]
  rw [dropWhile_eq_self (by decide : wsp 'S' = false)]
  rw [if_neg (by simp)]
  have hmk : ∀ x ∈ ['S', 'E', 'T'], (!wsp x) = true := by decide
  have hsp : (!wsp ' ') = false := by decide
  have htk : ('S' :: 'E' :: 'T' :: ' ' :: ((a :: k2) ++ ' ' :: (b :: v2))).takeWhile
      (fun c => !wsp c) = ['S', 'E', 'T'] :=
    takeWhile_all_append hmk hsp
  have hdk : ('S' :: 'E' :: 'T' :: ' ' :: ((a :: k2) ++ ' ' :: (b :: v2))).dropWhile
      (fun c => !wsp c) = ' ' :: ((a :: k2) ++ ' ' :: (b :: v2)) :=
    dropWhile_all_append hmk hsp
  rw [htk, hdk, pySplit_succ]
  have hd1 : (' ' :: ((a :: k2) ++ ' ' :: (b :: v2))).dropWhile wsp =
      (a :: k2) ++ ' ' :: (b :: v2) := by
    rw [List.dropWhile_cons_of_pos (by decide)]
    exact dropWhile_eq_self ha
  rw [hd1, if_neg (by simp)]
  have htk2 : ((a :: k2) ++ ' ' :: (b :: v2)).takeWhile (fun c => !wsp c) =
      a :: k2 := takeWhile_all_append hk2 hsp
  have hdk2 : ((a :: k2) ++ ' ' :: (b :: v2)).dropWhile (fun c => !wsp c) =
      ' ' :: (b :: v2) := dropWhile_all_append hk2 hsp
  rw [htk2, hdk2, pySplit_zero]
  have hd2 : (' ' :: (b :: v2)).dropWhile wsp = b :: v2 := by
    rw [List.dropWhile_cons_of_pos (by decide)]
    exact dropWhile_eq_self hb
  rw [hd2, if_neg (by simp)]

theorem applyLine_nil (st : Store) : applyLine st [] = st := rfl

theorem applyLine_recBody {st : Store} {k : Key} {v : Val}
    (hk : tokenOk k) (hv : valueOk v) :
    applyLine st (recBody k v) = setStore st k v := by
  unfold applyLine
  rw [pyStrip_recBody hk hv]
  rw [pySplit_recBody hk hv]
  rfl

/-- Appending one well-formed record line to a newline-terminated (or
empty/missing) file makes replay produce exactly one more store update. -/
theorem replayContent_append_record {st : Store} {f : List Char} {k : Key}
    {v : Val} (hf : endsNl f) (hk : tokenOk k) (hv : valueOk v) :
    replayContent st (f ++ mkRecordLine k v) = setStore (replayContent st f) k v := by
  have hfr : f.getLast? ≠ some '\r' := by
    rcases hf with h | h
    · subst h; simp
    · rw [h]; simp
  have hmknl : '\r' ∉ mkRecordLine k v := by
    rw [mkRecordLine_eq]
    intro hm
    rcases List.mem_append.mp hm with h | h
    · exact recBody_no_cr hk hv h
    · simp at h
  have hnorm : normNl (f ++ mkRecordLine k v) = normNl f ++ mkRecordLine k v := by
    rw [normNl_append hfr, normNl_of_no_cr hmknl]
  obtain ⟨ls, hls, hlsw⟩ := splitNl_endsNl (endsNl_normNl hf)
  have hsplit2 : splitNl (mkRecordLine k v) = [recBody k v, []] := by
    rw [mkRecordLine_eq]
    rw [show recBody k v ++ ['\n'] = recBody k v ++ '\n' :: [] from rfl]
    rw [splitNl_no_nl_cons (recBody_no_nl hk hv)]
    rfl
  unfold replayContent
  rw [hnorm, hlsw (mkRecordLine k v), hsplit2, hls]
  unfold replayLines
  rw [List.foldl_append, List.foldl_append]
  simp only [List.foldl_cons, List.foldl_nil]
  rw [applyLine_nil, applyLine_nil, applyLine_recBody hk hv]

/-! ### Store lemmas -/

def keys (t : Store) : List Key := t.map Prod.fst

theorem keys_nil : keys [] = [] := rfl

theorem keys_cons (e : Key × Val) (t : Store) : keys (e :: t) = e.1 :: keys t := rfl

theorem setStore_cons (k' : Key) (v' : Val) (t : Store) (k : Key) (v : Val) :
    setStore ((k', v') :: t) k v =
      if k' = k then (k, v) :: t else (k', v') :: setStore t k v := rfl

theorem get_value_cons (k' : Key) (v' : Val) (t : Store) (k : Key) :
    get_value ((k', v') :: t) k = if k' = k then some v' else get_value t k := rfl

theorem get_value_setStore (t : Store) (k : Key) (v : Val) (q : Key) :
    get_value (setStore t k v) q = if q = k then some v else get_value t q := by
  induction t with
  | nil =>
    show get_value [(k, v)] q = _
    rw [get_value_cons]
    by_cases hqk : q = k
    · rw [if_pos hqk.symm, if_pos hqk]
    · rw [if_neg (fun h : k = q => hqk h.symm), if_neg hqk]
  | cons e t ih =>
    obtain ⟨k', v'⟩ := e
    rw [setStore_cons]
    by_cases hk' : k' = k
    · subst hk'
      rw [if_pos rfl, get_value_cons, get_value_cons]
      by_cases hqk : q = k'
      · rw [if_pos hqk.symm, if_pos hqk]
      · rw [if_neg (fun h : k' = q => hqk h.symm), if_neg hqk,
          if_neg (fun h : k' = q => hqk h.symm)]
    · rw [if_neg hk', get_value_cons, get_value_cons, ih]
      by_cases hq' : k' = q
      · by_cases hqk : q = k
        · exact absurd (hq'.trans hqk) hk'
        · simp [hq', hqk]
      · by_cases hqk : q = k
        · simp [hq', hqk, hk']
        · simp [hq', hqk]

theorem mem_keys_setStore_self (t : Store) (k : Key) (v : Val) :
    k ∈ keys (setStore t k v) := by
  induction t with
  | nil => exact List.mem_singleton.mpr rfl
  | cons e t ih =>
    obtain ⟨k', v'⟩ := e
    rw [setStore_cons]
    by_cases hk' : k' = k
    · rw [if_pos hk', keys_cons]
      exact List.mem_cons_self _ _
    · rw [if_neg hk', keys_cons]
      exact List.mem_cons_of_mem _ ih

theorem mem_keys_setStore_mono {t : Store} {k0 : Key} (h : k0 ∈ keys t)
    (k : Key) (v : Val) : k0 ∈ keys (setStore t k v) := by
  induction t with
  | nil => simp [keys_nil] at h
  | cons e t ih =>
    obtain ⟨k', v'⟩ := e
    rw [keys_cons] at h
    rw [setStore_cons]
    by_cases hk' : k' = k
    · rw [if_pos hk', keys_cons]
      rcases List.mem_cons.mp h with h0 | h0
      · rw [h0.trans hk']
        exact List.mem_cons_self _ _
      · exact List.mem_cons_of_mem _ h0
    · rw [if_neg hk', keys_cons]
      rcases List.mem_cons.mp h with h0 | h0
      · rw [h0]
        exact List.mem_cons_self _ _
      · exact List.mem_cons_of_mem _ (ih h0)

theorem keys_setStore_of_mem {t : Store} {k : Key} (h : k ∈ keys t) (v : Val) :
    keys (setStore t k v) = keys t := by
  induction t with
  | nil => simp [keys_nil] at h
  | cons e t ih =>
    obtain ⟨k', v'⟩ := e
    rw [keys_cons] at h
    rw [setStore_cons]
    by_cases hk' : k' = k
    · rw [if_pos hk', keys_cons, keys_cons]
      simp [hk']
    · rw [if_neg hk', keys_cons, keys_cons]
      rcases List.mem_cons.mp h with h0 | h0
      · exact absurd h0.symm hk'
      · rw [ih h0]

theorem setStore_not_mem {t : Store} {k : Key} (h : k ∉ keys t) (v : Val) :
    setStore t k v = t ++ [(k, v)] := by
  induction t with
  | nil => rfl
  | cons e t ih =>
    obtain ⟨k', v'⟩ := e
    rw [keys_cons] at h
    have hk' : k' ≠ k := fun hc => h (hc ▸ List.mem_cons_self _ _)
    rw [setStore_cons, if_neg hk', List.cons_append,
      ih (fun hc => h (List.mem_cons_of_mem _ hc))]

theorem setStore_append_mem {p : Store} {k : Key} (h : k ∈ keys p)
    (z : Store) (v : Val) : setStore (p ++ z) k v = setStore p k v ++ z := by
  induction p with
  | nil => simp [keys_nil] at h
  | cons e p ih =>
    obtain ⟨k', v'⟩ := e
    rw [keys_cons] at h
    rw [List.cons_append, setStore_cons, setStore_cons]
    by_cases hk' : k' = k
    · rw [if_pos hk', if_pos hk', List.cons_append]
    · rw [if_neg hk', if_neg hk', List.cons_append]
      rcases List.mem_cons.mp h with h0 | h0
      · exact absurd h0.symm hk'
      · rw [ih h0]

theorem setStore_append_not_mem {p : Store} {k : Key} (h : k ∉ keys p)
    (z : Store) (v : Val) : setStore (p ++ z) k v = p ++ setStore z k v := by
  induction p with
  | nil => rfl
  | cons e p ih =>
    obtain ⟨k', v'⟩ := e
    rw [keys_cons] at h
    have hk' : k' ≠ k := fun hc => h (hc ▸ List.mem_cons_self _ _)
    rw [List.cons_append, setStore_cons, if_neg hk', List.cons_append,
      ih (fun hc => h (List.mem_cons_of_mem _ hc))]

theorem setStore_first {p : Store} {k : Key} (h : k ∉ keys p)
    (v0 : Val) (q : Store) (v : Val) :
    setStore (p ++ (k, v0) :: q) k v = p ++ (k, v) :: q := by
  rw [setStore_append_not_mem h, setStore_cons, if_pos rfl]

theorem first_occ {t : Store} {k : Key} (h : k ∈ keys t) :
    ∃ p v0 q, k ∉ keys p ∧ t = p ++ (k, v0) :: q := by
  induction t with
  | nil => simp [keys_nil] at h
  | cons e t ih =>
    obtain ⟨k', v'⟩ := e
    rw [keys_cons] at h
    by_cases hk' : k' = k
    · subst hk'
      exact ⟨[], v', t, by simp [keys_nil], rfl⟩
    · rcases List.mem_cons.mp h with h0 | h0
      · exact absurd h0.symm hk'
      · obtain ⟨p, v0, q, hp, ht⟩ := ih h0
        refine ⟨(k', v') :: p, v0, q, ?_, by rw [ht]; rfl⟩
        rw [keys_cons]
        intro hm
        rcases List.mem_cons.mp hm with h1 | h1
        · exact hk' h1.symm
        · exact hp h1

/-! ### Record application lemmas -/

theorem applyRecs_nil (st : Store) : applyRecs st [] = st := rfl

theorem applyRecs_cons (st : Store) (r : Key × Val) (rs : List (Key × Val)) :
    applyRecs st (r :: rs) = applyRecs (setStore st r.1 r.2) rs := rfl

theorem applyRecs_single (st : Store) (k : Key) (v : Val) :
    applyRecs st [(k, v)] = setStore st k v := rfl

theorem applyRecs_append (st : Store) (rs1 rs2 : List (Key × Val)) :
    applyRecs st (rs1 ++ rs2) = applyRecs (applyRecs st rs1) rs2 :=
  List.foldl_append _ _ _ _

theorem mem_keys_applyRecs_mono {t : Store} {k0 : Key} (h : k0 ∈ keys t)
    (rs : List (Key × Val)) : k0 ∈ keys (applyRecs t rs) := by
  induction rs generalizing t with
  | nil => exact h
  | cons r rs ih => exact ih (mem_keys_setStore_mono h r.1 r.2)

theorem recKeys_mem_applyRecs (t : Store) (rs : List (Key × Val)) :
    ∀ r ∈ rs, r.1 ∈ keys (applyRecs t rs) := by
  induction rs generalizing t with
  | nil => simp
  | cons r0 rs ih =>
    intro r hr
    rcases List.mem_cons.mp hr with h0 | h0
    · subst h0
      rw [applyRecs_cons]
      exact mem_keys_applyRecs_mono (mem_keys_setStore_self t r.1 r.2) rs
    · rw [applyRecs_cons]
      exact ih _ r h0

theorem applyRecs_append_frame {z : Store} {rs : List (Key × Val)} :
    ∀ {w : Store}, (∀ r ∈ rs, r.1 ∈ keys w) →
      applyRecs (w ++ z) rs = applyRecs w rs ++ z := by
  induction rs with
  | nil => intro w _; rfl
  | cons r rs ih =>
    intro w h
    rw [applyRecs_cons, applyRecs_cons,
      setStore_append_mem (h r (List.mem_cons_self _ _)) z r.2]
    apply ih
    intro r2 hr2
    rw [keys_setStore_of_mem (h r (List.mem_cons_self _ _)) r.2]
    exact h r2 (List.mem_cons_of_mem _ hr2)

/-! ### Idempotence machinery

Two stores that agree everywhere except possibly at the value stored at the
first occurrence of one key. -/

def diffAtKey (k : Key) (t u : Store) : Prop :=
  t = u ∨ ∃ p v1 v2 q, k ∉ keys p ∧ t = p ++ (k, v1) :: q ∧ u = p ++ (k, v2) :: q

theorem diffAtKey_refl (k : Key) (t : Store) : diffAtKey k t t := Or.inl rfl

theorem diffAtKey_setStore {k : Key} {t u : Store} (h : diffAtKey k t u)
    (k' : Key) (v' : Val) : diffAtKey k (setStore t k' v') (setStore u k' v') := by
  rcases h with rfl | ⟨p, v1, v2, q, hp, rfl, rfl⟩
  · exact diffAtKey_refl _ _
  · by_cases hk' : k' = k
    · subst hk'
      left
      rw [setStore_first hp, setStore_first hp]
    · by_cases hmem : k' ∈ keys p
      · right
        refine ⟨setStore p k' v', v1, v2, q, ?_, ?_, ?_⟩
        · rw [keys_setStore_of_mem hmem]
          exact hp
        · rw [setStore_append_mem hmem]
        · rw [setStore_append_mem hmem]
      · right
        refine ⟨p, v1, v2, setStore q k' v', hp, ?_, ?_⟩
        · rw [setStore_append_not_mem hmem, setStore_cons,
            if_neg (fun hc : k = k' => hk' hc.symm)]
        · rw [setStore_append_not_mem hmem, setStore_cons,
            if_neg (fun hc : k = k' => hk' hc.symm)]

theorem diffAtKey_applyRecs {k : Key} {t u : Store} (h : diffAtKey k t u)
    (rs : List (Key × Val)) : diffAtKey k (applyRecs t rs) (applyRecs u rs) := by
  induction rs generalizing t u with
  | nil => exact h
  | cons r rs ih =>
    rw [applyRecs_cons, applyRecs_cons]
    exact ih (diffAtKey_setStore h r.1 r.2)

theorem diffAtKey_setStore_eq {k : Key} {t u : Store} (h : diffAtKey k t u)
    (v : Val) : setStore t k v = setStore u k v := by
  rcases h with rfl | ⟨p, v1, v2, q, hp, rfl, rfl⟩
  · rfl
  · rw [setStore_first hp, setStore_first hp]

/-- Applying the same record list twice gives the same store as applying it
once (for any starting store). -/
theorem applyRecs_idem (rs : List (Key × Val)) :
    ∀ s : Store, applyRecs (applyRecs s rs) rs = applyRecs s rs := by
  induction rs using List.reverseRecOn with
  | nil => intro s; rfl
  | append_singleton rs r ih =>
    intro s
    obtain ⟨k, v⟩ := r
    simp only [applyRecs_append, applyRecs_single]
    have hw : applyRecs (applyRecs s rs) rs = applyRecs s rs := ih s
    by_cases hk : k ∈ keys (applyRecs s rs)
    · have h1 : diffAtKey k (setStore (applyRecs s rs) k v) (applyRecs s rs) := by
        obtain ⟨p, v0, q, hp, hdec⟩ := first_occ hk
        right
        exact ⟨p, v, v0, q, hp, by rw [hdec, setStore_first hp], hdec⟩
      have h2 := diffAtKey_applyRecs h1 rs
      rw [hw] at h2
      exact diffAtKey_setStore_eq h2 v
    · have hsub : ∀ r2 ∈ rs, r2.1 ∈ keys (applyRecs s rs) :=
        recKeys_mem_applyRecs s rs
      rw [setStore_not_mem hk, applyRecs_append_frame hsub, hw,
        setStore_append_not_mem hk, setStore_cons, if_pos rfl]

/-! ### Replay as record application -/

theorem applyLine_eq_parse (st : Store) (raw : List Char) :
    applyLine st raw =
      match parseLine raw with
      | some r => setStore st r.1 r.2
      | none => st := by
  unfold applyLine parseLine
  by_cases hm : hasMarker (pyStrip raw)
  · rw [if_pos hm, if_pos hm]
    rcases hp : pySplit 2 (pyStrip raw) with _ | ⟨a, _ | ⟨b, _ | ⟨c, _ | ⟨d, t⟩⟩⟩⟩ <;> rfl
  · rw [if_neg hm, if_neg hm]

theorem replayLines_eq_applyRecs (ls : List (List Char)) :
    ∀ st : Store, replayLines st ls = applyRecs st (recsOf ls) := by
  induction ls with
  | nil => intro st; rfl
  | cons l ls ih =>
    intro st
    show replayLines (applyLine st l) ls = applyRecs st (recsOf (l :: ls))
    rw [ih, applyLine_eq_parse]
    unfold recsOf
    rw [List.filterMap_cons]
    cases hp : parseLine l with
    | none => rfl
    | some r => rw [applyRecs_cons]

/-- Replaying the same raw line list twice equals replaying it once. -/
theorem replayLines_idem (st : Store) (ls : List (List Char)) :
    replayLines (replayLines st ls) ls = replayLines st ls := by
  simp only [replayLines_eq_applyRecs]
  exact applyRecs_idem _ _

/-! ### Last-write-wins lookup lemmas -/

theorem lastVal_nil (q : Key) : lastVal [] q = none := rfl

theorem lastVal_append_single (rs : List (Key × Val)) (k : Key) (v : Val)
    (q : Key) :
    lastVal (rs ++ [(k, v)]) q = if k = q then some v else lastVal rs q := by
  unfold lastVal
  rw [List.filter_append]
  by_cases hkq : k = q
  · rw [if_pos hkq]
    have : List.filter (fun r => r.1 == q) [(k, v)] = [(k, v)] := by
      simp [List.filter, hkq]
    rw [this, List.getLast?_concat]
    rfl
  · rw [if_neg hkq]
    have hb : (k == q) = false := beq_eq_false_iff_ne.mpr hkq
    have : List.filter (fun r => r.1 == q) [(k, v)] = [] := by
      simp [List.filter, hb]
    rw [this, List.append_nil]

theorem get_value_applyRecs_none {rs : List (Key × Val)} {q : Key}
    (h : lastVal rs q = none) (t : Store) :
    get_value (applyRecs t rs) q = get_value t q := by
  induction rs using List.reverseRecOn generalizing t with
  | nil => rfl
  | append_singleton rs r ih =>
    obtain ⟨k, v⟩ := r
    rw [lastVal_append_single] at h
    by_cases hkq : k = q
    · rw [if_pos hkq] at h
      exact absurd h (by simp)
    · rw [if_neg hkq] at h
      rw [applyRecs_append, applyRecs_single, get_value_setStore,
        if_neg (fun hc : q = k => hkq hc.symm)]
      exact ih h t

theorem get_value_applyRecs_some {rs : List (Key × Val)} {q : Key} {v0 : Val}
    (h : lastVal rs q = some v0) (t : Store) :
    get_value (applyRecs t rs) q = some v0 := by
  induction rs using List.reverseRecOn generalizing t with
  | nil => exact absurd h (by simp [lastVal_nil])
  | append_singleton rs r ih =>
    obtain ⟨k, v⟩ := r
    rw [lastVal_append_single] at h
    by_cases hkq : k = q
    · rw [if_pos hkq] at h
      rw [applyRecs_append, applyRecs_single, get_value_setStore,
        if_pos hkq.symm]
      exact h.symm ▸ rfl
    · rw [if_neg hkq] at h
      rw [applyRecs_append, applyRecs_single, get_value_setStore,
        if_neg (fun hc : q = k => hkq hc.symm)]
      exact ih h t

/-! ### The cache/log invariant -/

theorem replayContent_nil (st : Store) : replayContent st [] = st := rfl

/-- Well-formed tokens from a stripped, newline-free input line: the key
token of a three-way split is a whitespace-free word and the value token a
well-formed value. -/
theorem parts_tokenOk_valueOk {line c k v : List Char} {t : List (List Char)}
    (hline : inputLineOk line)
    (hp : pySplit 2 (pyStrip line) = c :: k :: v :: t) :
    tokenOk k ∧ valueOk v := by
  obtain ⟨htk, hvne, hvh, hvsuf⟩ := pySplit_two_shape hp
  refine ⟨htk, hvne, hvh, ?_, ?_⟩
  · have hLne : pyStrip line ≠ [] := by
      intro hc
      rw [hc] at hvsuf
      exact hvne (List.suffix_nil.mp hvsuf)
    have hLlast := pyStrip_getLast hLne
    have hgl := suffix_getLast? hvsuf hvne
    rw [List.getLastD_eq_getLast?, ← hgl, ← List.getLastD_eq_getLast?]
    exact hLlast
  · intro a ha
    have h2 : a ∈ line := pyStrip_mem (hvsuf.subset ha)
    intro hc
    rcases hc with hc | hc
    · exact hline.1 (hc ▸ h2)
    · exact hline.2 (hc ▸ h2)

/-- The invariant claimed of every reachable state: the cache equals the
replay of the on-disk file, and the file is absent, empty, or
newline-terminated. -/
def stateInv (s : State) : Prop :=
  s.store = replayDisk s.file ∧ endsNlD s.file

theorem stateInv_start {disk : Option (List Char)} (h : endsNlD disk) :
    stateInv (startState disk) :=
  ⟨rfl, h⟩

theorem replayDisk_getD {disk : Option (List Char)} :
    replayDisk disk = replayContent [] (disk.getD []) := by
  cases disk with
  | none => rfl
  | some c => rfl

theorem endsNl_getD {disk : Option (List Char)} (h : endsNlD disk) :
    endsNl (disk.getD []) := by
  cases disk with
  | none => exact Or.inl rfl
  | some c => exact h c rfl

theorem mkRecordLine_getLast (k : Key) (v : Val) (x : List Char) :
    (x ++ mkRecordLine k v).getLast? = some '\n' := by
  rw [mkRecordLine_eq, ← List.append_assoc]
  exact List.getLast?_concat _

/-- One loop iteration preserves the invariant when the input line is one
the dispatcher can actually read and the append (if any) succeeds. -/
theorem step_inv {interactive : Bool} {s : State} {line : List Char}
    {s2 : State} {o : List OutEv} (hInv : stateInv s)
    (hline : inputLineOk line)
    (h : step interactive s line true = StepRes.next s2 o ∨
      step interactive s line true = StepRes.halt s2 o) :
    stateInv s2 := by
  unfold step at h
  by_cases hemp : line.isEmpty
  · rw [if_pos hemp] at h
    rcases h with h | h
    · cases h
      exact hInv
    · cases h
  · rw [if_neg hemp] at h
    rcases hp : pySplit 2 (pyStrip line) with _ | ⟨c, _ | ⟨a2, _ | ⟨v2, t⟩⟩⟩
    all_goals rw [hp] at h
    · simp only [stepParts] at h
      rcases h with h | h <;> cases h
    · simp only [stepParts] at h
      by_cases hc : c = strEXIT
      · rw [if_pos hc] at h
        rcases h with h | h <;> cases h
        exact hInv
      · rw [if_neg hc] at h
        rcases h with h | h <;> cases h
        exact hInv
    · simp only [stepParts] at h
      by_cases hc : c = strGET
      · rw [if_pos hc] at h
        rcases h with h | h <;> cases h
        exact hInv
      · rw [if_neg hc] at h
        by_cases hc2 : c = strEXIT
        · rw [if_pos hc2] at h
          rcases h with h | h <;> cases h
          exact hInv
        · rw [if_neg hc2] at h
          rcases h with h | h <;> cases h
          exact hInv
    · simp only [stepParts] at h
      by_cases hc : c = strSET
      · rw [if_pos hc] at h
        rcases h with h | h
        · cases h
          obtain ⟨hkv1, hkv2⟩ := parts_tokenOk_valueOk hline hp
          constructor
          · show setStore s.store a2 v2 =
              replayDisk (some (s.file.getD [] ++ mkRecordLine a2 v2))
            show setStore s.store a2 v2 =
              replayContent [] (s.file.getD [] ++ mkRecordLine a2 v2)
            rw [replayContent_append_record (endsNl_getD hInv.2) hkv1 hkv2]
            rw [← replayDisk_getD, ← hInv.1]
          · intro cf hcf
            cases hcf
            right
            exact mkRecordLine_getLast a2 v2 _
        · cases h
      · rw [if_neg hc] at h
        by_cases hc2 : c = strEXIT
        · rw [if_pos hc2] at h
          rcases h with h | h <;> cases h
          exact hInv
        · rw [if_neg hc2] at h
          rcases h with h | h <;> cases h
          exact hInv

/-- Running the loop from an invariant state, on readable lines whose
appends all succeed, ends (if it does not crash) in an invariant state. -/
theorem run_inv {interactive : Bool} :
    ∀ (lines : List (List Char × Bool)) (s : State), stateInv s →
      (∀ p ∈ lines, inputLineOk p.1 ∧ p.2 = true) →
      ∀ s', run interactive s lines = some s' → stateInv s' := by
  intro lines
  induction lines with
  | nil =>
    intro s hInv _ s' h
    cases h
    exact hInv
  | cons p rest ih =>
    intro s hInv hwf s' h
    obtain ⟨l, ok⟩ := p
    have hok : ok = true := (hwf _ (List.mem_cons_self _ _)).2
    subst hok
    have hl : inputLineOk l := (hwf _ (List.mem_cons_self _ _)).1
    unfold run at h
    cases hstep : step interactive s l true with
    | next s2 o =>
      rw [hstep] at h
      exact ih s2 (step_inv hInv hl (Or.inl hstep))
        (fun q hq => hwf q (List.mem_cons_of_mem _ hq)) s' h
    | halt s2 o =>
      rw [hstep] at h
      cases h
      exact step_inv hInv hl (Or.inr hstep)
    | crash =>
      rw [hstep] at h
      cases h

/-! ## Claims -/

/-- C1 counterexample: the claim as stated fails when the log file present
at startup is not newline-terminated (e.g. a record truncated by a crash).
Starting from file `"x"`, a successful `SET a 1` appends onto the
unterminated last line, so the disk holds `"xSET a 1\n"`; the cache is
`{a: "1"}` but replaying the file yields the empty mapping. -/
theorem claim1_invariant_cex :
    run true (startState (some (s2l "x"))) [(s2l "SET a 1", true)] =
      some ⟨[(s2l "a", s2l "1")], some (s2l "xSET a 1\n")⟩ ∧
    replayDisk (some (s2l "xSET a 1\n")) = [] ∧
    ([(s2l "a", s2l "1")] : Store) ≠ [] := by
  refine ⟨by decide, by decide, by decide⟩

/-- C1 (amended): for every reachable state of the process — after startup
replay of a log file that is absent, empty, or newline-terminated, followed
by any sequence of dispatcher operations on readable input lines (which
contain no line terminator) with every `SET`'s append succeeding — the
in-memory cache equals the mapping obtained by replaying the on-disk log
file in order with last-write-wins. -/
theorem claim1_invariant {interactive : Bool} {disk : Option (List Char)}
    {lines : List (List Char × Bool)} {s' : State}
    (hdisk : endsNlD disk)
    (hlines : ∀ p ∈ lines, inputLineOk p.1 ∧ p.2 = true)
    (hrun : run interactive (startState disk) lines = some s') :
    s'.store = replayDisk s'.file :=
  (run_inv lines (startState disk) (stateInv_start hdisk) hlines s' hrun).1

/-- C1 witness: a concrete run (pre-existing log `"SET a 0\n"`, then
`SET a 1` and `GET a`) reaching the state whose cache the theorem equates
with the replay of its file. -/
theorem claim1_invariant_witness :
    (⟨[(s2l "a", s2l "1")], some (s2l "SET a 0\nSET a 1\n")⟩ : State).store =
      replayDisk (⟨[(s2l "a", s2l "1")],
        some (s2l "SET a 0\nSET a 1\n")⟩ : State).file :=
  @claim1_invariant true (some (s2l "SET a 0\n"))
    [(s2l "SET a 1", true), (s2l "GET a", true)]
    ⟨[(s2l "a", s2l "1")], some (s2l "SET a 0\nSET a 1\n")⟩
    (by intro c hc
        injection hc with hh
        subst hh
        exact Or.inr (by decide))
    (by decide)
    (by decide)

/-- C2 counterexample: the claim quantifies over every value string, but an
empty value does not survive the round trip: `appendRecord "x" ""` writes
`"SET x \n"`, whose stripped line splits into only two tokens, so replay
skips it and `get "x"` is `none`, not `some ""`. -/
theorem claim2_roundTrip_cex :
    get_value (replayContent [] (mkRecordLine (s2l "x") (s2l ""))) (s2l "x") =
      none := by
  decide

/-- C2 (amended): for every key that is nonempty and whitespace-free and
every value that is nonempty, contains no newline or carriage return, and
neither begins nor ends with whitespace, a successful
`appendRecord key value` to a log that is empty or newline-terminated,
followed by a fresh restart-and-replay, yields a cache in which
`get key` returns exactly that value, preserved verbatim. -/
theorem claim2_roundTrip {f k v : List Char} (hf : endsNl f)
    (hk : tokenOk k) (hv : valueOk v) :
    get_value (replayContent [] (f ++ mkRecordLine k v)) k = some v := by
  rw [replayContent_append_record hf hk hv, get_value_setStore, if_pos rfl]

/-- C2 witness: `set "x" "hello world"` on an empty log, then
restart-and-replay, yields `get "x" = "hello world"` with the internal
space preserved. -/
theorem claim2_roundTrip_witness :
    tokenOk (s2l "x") ∧ valueOk (s2l "hello world") ∧
    get_value (replayContent [] ([] ++ mkRecordLine (s2l "x")
      (s2l "hello world"))) (s2l "x") = some (s2l "hello world") :=
  ⟨by decide, by decide,
    claim2_roundTrip (Or.inl rfl) (by decide) (by decide)⟩

/-- C3: in the event trace of one `save_set` call, a store update only ever
occurs when no I/O step failed, and it is preceded by the write of that
exact record line and by the fsync — the record is durably persisted before
the in-memory cache is updated, and never otherwise. -/
theorem claim3_durability_order (k : Key) (v : Val) (failAt : Option (Fin 4))
    (i : Nat)
    (h : (save_setTrace k v failAt)[i]? = some (Ev.evStoreUpdate k v)) :
    failAt = none ∧ ∃ jw jf, jw < jf ∧ jf < i ∧
      (save_setTrace k v failAt)[jw]? = some (Ev.evWrite (mkRecordLine k v)) ∧
      (save_setTrace k v failAt)[jf]? = some Ev.evFsync := by
  cases failAt with
  | none =>
    have hlen : (save_setTrace k v none).length = 5 := by
      simp [save_setTrace, ioSeq]
    have hi : i < 5 := by
      by_contra hge
      push_neg at hge
      rw [List.getElem?_eq_none (by rw [hlen]; omega)] at h
      exact Option.noConfusion h
    interval_cases i
    · simp [save_setTrace, ioSeq] at h
    · simp [save_setTrace, ioSeq] at h
    · simp [save_setTrace, ioSeq] at h
    · simp [save_setTrace, ioSeq] at h
    · exact ⟨rfl, 1, 3, by omega, by omega,
        by simp [save_setTrace, ioSeq], by simp [save_setTrace, ioSeq]⟩
  | some fi =>
    exfalso
    have hmem : Ev.evStoreUpdate k v ∈ save_setTrace k v (some fi) :=
      List.getElem?_mem h
    fin_cases fi <;> simp [save_setTrace, ioSeq] at hmem

/-- C3 witness: the successful trace for `save_set "a" "1"` has its store
update at index 4, after the write (index 1) and the fsync (index 3). -/
theorem claim3_durability_order_witness :
    (save_setTrace (s2l "a") (s2l "1") none)[4]? =
      some (Ev.evStoreUpdate (s2l "a") (s2l "1")) ∧
    ((none : Option (Fin 4)) = none ∧ ∃ jw jf, jw < jf ∧ jf < 4 ∧
      (save_setTrace (s2l "a") (s2l "1") none)[jw]? =
        some (Ev.evWrite (mkRecordLine (s2l "a") (s2l "1"))) ∧
      (save_setTrace (s2l "a") (s2l "1") none)[jf]? = some Ev.evFsync) :=
  ⟨by decide, claim3_durability_order (s2l "a") (s2l "1") none 4 (by decide)⟩

theorem run_cons (i : Bool) (s : State) (l : List Char) (ok : Bool)
    (rest : List (List Char × Bool)) :
    run i s ((l, ok) :: rest) =
      match step i s l ok with
      | StepRes.next s' _ => run i s' rest
      | StepRes.halt s' _ => some s'
      | StepRes.crash => none := rfl

/-- C4: when the append's I/O fails, `save_set` reports the error and
leaves the cache unchanged, the loop iteration ends in a `next` state equal
to the old one (same store, same file), and the process keeps consuming
further commands exactly as if the failed line had not been entered. -/
theorem claim4_write_failure {interactive : Bool} {s : State}
    {line c k v : List Char} {t : List (List Char)}
    (hline : ¬line.isEmpty = true)
    (hp : pySplit 2 (pyStrip line) = c :: k :: v :: t) (hc : c = strSET)
    (rest : List (List Char × Bool)) :
    save_set s.store s.file k v false = (s.store, s.file, true) ∧
    step interactive s line false =
      StepRes.next s ([OutEv.err msgWriteError] ++
        (if interactive then [OutEv.err msgOK] else [])) ∧
    run interactive s ((line, false) :: rest) = run interactive s rest := by
  have hstep : step interactive s line false =
      StepRes.next s ([OutEv.err msgWriteError] ++
        (if interactive then [OutEv.err msgOK] else [])) := by
    unfold step
    rw [if_neg hline, hp]
    simp only [stepParts]
    rw [if_pos hc]
    rfl
  refine ⟨rfl, hstep, ?_⟩
  rw [run_cons, hstep]

/-- C4 witness: a failed `SET a 1` on the fresh store leaves the state
unchanged, logs the error, and the loop continues with the rest of the
input. -/
theorem claim4_write_failure_witness :
    save_set (startState none).store (startState none).file (s2l "a")
      (s2l "1") false = ((startState none).store, (startState none).file, true) ∧
    step true (startState none) (s2l "SET a 1") false =
      StepRes.next (startState none) ([OutEv.err msgWriteError] ++
        (if true then [OutEv.err msgOK] else [])) ∧
    run true (startState none) [(s2l "SET a 1", false), (s2l "GET a", true)] =
      run true (startState none) [(s2l "GET a", true)] :=
  @claim4_write_failure true (startState none) (s2l "SET a 1") strSET
    (s2l "a") (s2l "1") [] (by decide) (by decide) rfl [(s2l "GET a", true)]

/-- C5: replay applies valid records in file order with last-write-wins:
whenever the last record for a key in the file is `(key, v)`, `get key`
after replaying the file into the empty store returns `v`. -/
theorem claim5_last_write_wins {content q v : List Char}
    (h : lastVal (recsOf (splitNl (normNl content))) q = some v) :
    get_value (replayContent [] content) q = some v := by
  unfold replayContent
  rw [replayLines_eq_applyRecs]
  exact get_value_applyRecs_some h []

/-- C5 witness: for log content `"SET a 1\nSET a 2\n"`, the last record
for `"a"` carries `"2"` and `get "a"` after replay returns `"2"`. -/
theorem claim5_last_write_wins_witness :
    lastVal (recsOf (splitNl (normNl (s2l "SET a 1\nSET a 2\n")))) (s2l "a") =
      some (s2l "2") ∧
    get_value (replayContent [] (s2l "SET a 1\nSET a 2\n")) (s2l "a") =
      some (s2l "2") :=
  ⟨by decide, claim5_last_write_wins (by decide)⟩

/-- C6: every line that contributes no record — it lacks the `SET ` marker
after stripping or does not split into exactly three tokens — is skipped by
replay, leaving the store untouched (replay is total, so it never aborts);
in particular `"SET a 1\nGARBAGE\nSET b 2\n"` replays to
`{a: "1", b: "2"}`. -/
theorem claim6_malformed_skipped :
    (∀ (st : Store) (raw : List Char), parseLine raw = none →
      applyLine st raw = st) ∧
    replayContent [] (s2l "SET a 1\nGARBAGE\nSET b 2\n") =
      [(s2l "a", s2l "1"), (s2l "b", s2l "2")] := by
  constructor
  · intro st raw h
    rw [applyLine_eq_parse, h]
  · decide

/-- C6 witness: `"GARBAGE"` parses to no record, and applying it to a
populated store leaves the store unchanged. -/
theorem claim6_malformed_skipped_witness :
    parseLine (s2l "GARBAGE") = none ∧
    applyLine [(s2l "a", s2l "1")] (s2l "GARBAGE") = [(s2l "a", s2l "1")] :=
  ⟨by decide, claim6_malformed_skipped.1 _ _ (by decide)⟩

/-- C7: when the log file does not exist, `load_store` returns before the
`try` block: the store is left as it was (the empty mapping at startup),
and no error is logged, whatever the injected read outcome would have
been. -/
theorem claim7_missing_file (st : Store) (readFailAfter : Option Nat) :
    load_storeRun st none readFailAfter = (st, false) ∧
    load_store [] none = [] :=
  ⟨rfl, rfl⟩

/-- C8: replay is idempotent: replaying the same file content twice in
succession (no writes in between) yields a store identical to replaying it
once, from any starting store. -/
theorem claim8_replay_idem (st : Store) (content : List Char) :
    replayContent (replayContent st content) content =
      replayContent st content :=
  replayLines_idem st (splitNl (normNl content))

/-- C9 (code evaluated at the failing input): a whitespace-only input line
is not empty, so it is not skipped; it strips to `""` and splits to no
parts, and the dispatch chain then evaluates `parts[0]`, an uncaught
`IndexError` that kills the process — in both interactive and
non-interactive sessions — instead of the non-fatal invalid-command
handling the claim describes. -/
theorem claim9_invalid_command_crash :
    step true (startState none) (s2l "   ") true = StepRes.crash ∧
    step false (startState none) (s2l "   ") true = StepRes.crash ∧
    run true (startState none) [(s2l "   ", true), (s2l "GET a", true)] =
      none := by
  refine ⟨by decide, by decide, by decide⟩

/-- C10: `load_store` merges into the existing cache: replaying file
content over any starting store leaves every key without a valid record in
the file at its prior value, and sets every key with records to the value
of its last record — the prior cache overlaid with the log's
last-write-wins mapping, with no entry ever removed. -/
theorem claim10_replay_merges (st : Store) (content : List Char) (q : Key) :
    (lastVal (recsOf (splitNl (normNl content))) q = none →
      get_value (replayContent st content) q = get_value st q) ∧
    (∀ v, lastVal (recsOf (splitNl (normNl content))) q = some v →
      get_value (replayContent st content) q = some v) := by
  constructor
  · intro h
    unfold replayContent
    rw [replayLines_eq_applyRecs]
    exact get_value_applyRecs_none h st
  · intro v h
    unfold replayContent
    rw [replayLines_eq_applyRecs]
    exact get_value_applyRecs_some h st

/-- C10 witness: replaying `"SET a 1\n"` over the store `{z: "9"}` keeps
`z` at `"9"` (no record for `z`) and sets `a` to `"1"`. -/
theorem claim10_replay_merges_witness :
    lastVal (recsOf (splitNl (normNl (s2l "SET a 1\n")))) (s2l "z") = none ∧
    get_value (replayContent [(s2l "z", s2l "9")] (s2l "SET a 1\n"))
      (s2l "z") = get_value [(s2l "z", s2l "9")] (s2l "z") ∧
    lastVal (recsOf (splitNl (normNl (s2l "SET a 1\n")))) (s2l "a") =
      some (s2l "1") ∧
    get_value (replayContent [(s2l "z", s2l "9")] (s2l "SET a 1\n"))
      (s2l "a") = some (s2l "1") :=
  ⟨by decide,
    (claim10_replay_merges [(s2l "z", s2l "9")] (s2l "SET a 1\n")
      (s2l "z")).1 (by decide),
    by decide,
    (claim10_replay_merges [(s2l "z", s2l "9")] (s2l "SET a 1\n")
      (s2l "a")).2 (s2l "1") (by decide)⟩

end KVStore
